import Mathlib

/-!
Verification of the JSON comma-repair scripts `fix_json.py` and
`fix_json_comprehensive.py`.

Both scripts are pure text-to-text transformations (the file I/O around them
is not modelled).  Texts are modelled as `List Char`.  The Python regular
expressions used by the scripts are fixed patterns whose matching behaviour
is deterministic (every bounded repetition in them is over a character class
disjoint from the literal that follows, so greedy matching with backtracking
admits exactly one parse); each `re.sub` call is embedded as a left-to-right,
non-overlapping scan specialised to its pattern.  Scans carry an explicit
fuel argument (the scan consumes at least one character per step, so fuel
equal to the length of the text always suffices; fuel-insensitivity is proved
below), which keeps every definition structurally recursive and hence
evaluable by `decide`.

Python's `\s` class and `str.strip()` are modelled over the ASCII whitespace
characters space, tab, newline, carriage return, vertical tab and form feed;
all inputs of interest here are ASCII.
-/

namespace FixJson

/-- Python's `\s` character class (ASCII part), also used by `str.strip()`. -/
def pySpace (c : Char) : Bool :=
  c = ' ' || c = '\t' || c = '\n' || c = '\r' || c = '\x0b' || c = '\x0c'

/-- Characters allowed inside a quoted key, i.e. the class `[^"]`. -/
def notQuote (c : Char) : Bool := c ≠ '"'

/-- One deterministic regex fragment: `p*` (greedy over class `p`) followed by
the literal character `c`.  Returns the consumed `p`-run and the rest after
`c`.  Because no character satisfying `p` equals `c` in any use below, this
is exactly what the backtracking engine computes. -/
def scanThen (p : Char → Bool) (c : Char) (s : List Char) :
    Option (List Char × List Char) :=
  match s.dropWhile p with
  | d :: rest => if d = c then some (s.takeWhile p, rest) else none
  | [] => none

/-- Anchored match of the pattern `(\s+})\n(\s+"[^"]+"\s*:\s*{)` from
`fix_json.py` at the head of `s`.  On success returns group 1 (`\s+}`),
group 2 (`\s+"[^"]+"\s*:\s*{`) and the remaining text after the match. -/
def matchP1 (s : List Char) : Option (List Char × List Char × List Char) :=
  match scanThen pySpace '}' s with
  | some (ws1, '\n' :: r2) =>
    if ws1 = [] then none else
    match scanThen pySpace '"' r2 with
    | some (ws2, r3) =>
      if ws2 = [] then none else
      match scanThen notQuote '"' r3 with
      | some (body, r4) =>
        if body = [] then none else
        match scanThen pySpace ':' r4 with
        | some (ws3, r5) =>
          match scanThen pySpace '{' r5 with
          | some (ws4, rest) =>
            some (ws1 ++ ['}'],
                  ws2 ++ '"' :: body ++ '"' :: ws3 ++ ':' :: ws4 ++ ['{'],
                  rest)
          | none => none
        | none => none
      | none => none
    | none => none
  | _ => none

/-- The `re.sub` scan for the pattern of `matchP1` with replacement
`\1,\n\2`: leftmost, non-overlapping, resuming after each match.  The fuel
argument bounds the number of scan steps; `s.length` always suffices. -/
def subP1F : Nat → List Char → List Char
  | 0, s => s
  | _ + 1, [] => []
  | f + 1, c :: cs =>
    match matchP1 (c :: cs) with
    | some (g1, g2, rest) => g1 ++ ',' :: '\n' :: g2 ++ subP1F f rest
    | none => c :: subP1F f cs

/-- The pure text transformation performed by `fix_json_syntax` in
`fix_json.py` (sans file I/O): `re.sub(r'(\s+})\n(\s+"[^"]+"\s*:\s*\x7b)',
add_comma, content)`, where `add_comma` rebuilds the match with a comma
inserted after group 1. -/
def fix_json_basic (s : List Char) : List Char := subP1F s.length s

/-- Anchored match of the pattern `,(\s*})` (the comprehensive script's
trailing-comma cleanup) at the head of `s`.  Returns group 1's whitespace run
and the rest after the closing brace. -/
def matchP2 (s : List Char) : Option (List Char × List Char) :=
  match s with
  | ',' :: r => scanThen pySpace '}' r
  | _ => none

/-- The `re.sub` scan for `,(\s*})` with replacement `\1` (the comma is
deleted, the whitespace and brace are kept). -/
def subP2F : Nat → List Char → List Char
  | 0, s => s
  | _ + 1, [] => []
  | f + 1, c :: cs =>
    match matchP2 (c :: cs) with
    | some (w, rest) => w ++ '}' :: subP2F f rest
    | none => c :: subP2F f cs

/-- Python `content.split('\n')`: cuts at every newline; the empty text
yields one empty line. -/
def splitNl : List Char → List (List Char)
  | [] => [[]]
  | c :: cs =>
    if c = '\n' then [] :: splitNl cs
    else
      match splitNl cs with
      | l :: ls => (c :: l) :: ls
      | [] => [[c]]

/-- Python `'\n'.join(lines)`. -/
def joinNl : List (List Char) → List Char
  | [] => []
  | [l] => l
  | l :: ls => l ++ '\n' :: joinNl ls

/-- Python `str.strip()` over the modelled whitespace class. -/
def pyStrip (l : List Char) : List Char :=
  ((l.dropWhile pySpace).reverse.dropWhile pySpace).reverse

/-- Python `str.endswith('\x7d')` (false on the empty string). -/
def endsWithClose (l : List Char) : Bool :=
  match l.getLast? with
  | some c => c = '}'
  | none => false

/-- Embedding of `re.match(r'\s*"[^"]+"\s*:\s*\x7b', line)` as a Boolean: does the
line begin with optional whitespace, a nonempty quoted key, optional
whitespace, a colon, optional whitespace and an opening brace? -/
def keyMatch (l : List Char) : Bool :=
  match scanThen pySpace '"' l with
  | some (_, r1) =>
    match scanThen notQuote '"' r1 with
    | some (body, r2) =>
      if body = [] then false else
      match scanThen pySpace ':' r2 with
      | some (_, r3) =>
        match scanThen pySpace '{' r3 with
        | some _ => true
        | none => false
      | none => false
    | none => false
  | none => false

/-- Guard `i + 1 < len(lines) and re.match(..., lines[i + 1])` of the
comprehensive script, phrased on the list of lines after line `i`. -/
def nextKeyMatch : List (List Char) → Bool
  | [] => false
  | n :: _ => keyMatch n

/-- The line-by-line pass of `fix_json_comprehensive`: append a comma to each
line whose stripped content ends with `\x7d` when the following line matches
the key pattern; every other line is kept as is. -/
def fixLines : List (List Char) → List (List Char)
  | [] => []
  | l :: rest =>
    (if endsWithClose (pyStrip l) && nextKeyMatch rest then l ++ [','] else l)
      :: fixLines rest

/-- The pure text transformation performed by `fix_json_comprehensive` in
`fix_json_comprehensive.py` (sans file I/O): split into lines, run the
line-by-line comma-insertion pass, rejoin, delete commas before closing
braces (`re.sub(r',(\s*\x7d)', r'\1', ...)`), then rerun the basic pattern
substitution (`re.sub(r'(\s+\x7d)\n(\s+"[^"]+"\s*:\s*\x7b)', r'\1,\n\2',
...)`). -/
def fix_json_comprehensive (s : List Char) : List Char :=
  let joined := joinNl (fixLines (splitNl s))
  let removed := subP2F joined.length joined
  subP1F removed.length removed

/-! ### Pattern-absence predicates and auxiliary measures -/

/-- No suffix of `s` matches the basic pattern `(\s+})\n(\s+"[^"]+"\s*:\s*{)`:
the text contains no occurrence the basic substitution could rewrite. -/
def p1Free : List Char → Bool
  | [] => true
  | c :: cs => (matchP1 (c :: cs)).isNone && p1Free cs

/-- No suffix of `s` matches the cleanup pattern `,(\s*})`: the text contains
no comma followed by optional whitespace and a closing brace. -/
def p2Free : List Char → Bool
  | [] => true
  | c :: cs => (matchP2 (c :: cs)).isNone && p2Free cs

/-- No adjacent pair of lines forms a repair site of the line-by-line pass:
no line whose stripped content ends in `}` is directly followed by a line
matching the quoted-key/open-brace pattern. -/
def sitesFree : List (List Char) → Bool
  | [] => true
  | l :: rest => !(endsWithClose (pyStrip l) && nextKeyMatch rest) && sitesFree rest

/-- Number of matches consumed by the scan of the basic pattern. -/
def p1CountF : Nat → List Char → Nat
  | 0, _ => 0
  | _ + 1, [] => 0
  | f + 1, c :: cs =>
    match matchP1 (c :: cs) with
    | some (_, _, rest) => p1CountF f rest + 1
    | none => p1CountF f cs

/-- Number of adjacent-line repair sites seen by the line-by-line pass. -/
def lineSiteCount : List (List Char) → Nat
  | [] => 0
  | l :: rest =>
    (if endsWithClose (pyStrip l) && nextKeyMatch rest then 1 else 0)
      + lineSiteCount rest

/-- The text with every comma character removed; used to state that the
transformations touch nothing but commas. -/
def dropCommas : List Char → List Char
  | [] => []
  | c :: cs => if c = ',' then dropCommas cs else c :: dropCommas cs

/-- Number of comma characters in the text. -/
def countCommas : List Char → Nat
  | [] => 0
  | c :: cs => (if c = ',' then 1 else 0) + countCommas cs

/-- The trailing-comma cleanup as the specification describes it: delete
every comma whose next non-whitespace character is a closing brace, and keep
every other character. -/
def eraseTrailingCommas : List Char → List Char
  | [] => []
  | c :: cs =>
    if c = ',' ∧ (cs.dropWhile pySpace).head? = some '}' then
      eraseTrailingCommas cs
    else c :: eraseTrailingCommas cs

/-! ### Concrete texts used in the example and counterexample theorems -/

/-- The six-line example input of the specification: two sibling objects with
the separating comma missing after the first closing brace. -/
def exJson : List Char :=
  ("    \"key1\": \x7b\n        \"value\": \"a\"\n    \x7d\n    \"key2\": \x7b\n        \"value\": \"b\"\n    \x7d").data

/-- The specification's expected output for `exJson`: one comma appended to
the line holding the first block's closing brace. -/
def exJsonFixed : List Char :=
  ("    \"key1\": \x7b\n        \"value\": \"a\"\n    \x7d,\n    \"key2\": \x7b\n        \"value\": \"b\"\n    \x7d").data

/-- The specification's trailing-comma example input. -/
def exTrailing : List Char := ("\"value\": \"a\",\n\x7d").data

/-- The specification's expected output for `exTrailing`. -/
def exTrailingFixed : List Char := ("\"value\": \"a\"\n\x7d").data

/-- A closing-brace line and a quoted-key line separated by a blank line:
no two adjacent lines form a repair site, yet the whitespace of the basic
pattern spans the blank line. -/
def cexBlank : List Char := (" \x7d\n\n \"k\": \x7b").data

/-- What both variants make of `cexBlank`: a comma is inserted after the
closing brace although the matching lines are not adjacent. -/
def cexBlankOut : List Char := (" \x7d,\n\n \"k\": \x7b").data

/-- Two commas directly before a closing brace: the single-pass cleanup
removes only the second one, so a second application removes the other. -/
def cexDouble : List Char := (",,\x7d").data

/-- A correctly comma-separated pair of objects followed, after a blank
line, by a further quoted-key line: every adjacent closing-brace/key pair
already carries its comma and no comma precedes a closing brace. -/
def cexCorrect : List Char :=
  ("    \"a\": \x7b \x7d,\n    \"b\": \x7b \x7d\n\n    \"c\": \x7b").data

/-- A closing-brace line separated from the next quoted-key line by a blank
line, used to exhibit a comma insertion at non-adjacent lines. -/
def cexGap : List Char := ("  \x7d\n\n  \"key\": \x7b").data

/-- A flat, already well-formed object used as a no-op witness input. -/
def exFlat : List Char := ("\x7b\n  \"a\": 1\n\x7d").data

/-! ### Basic facts about the scanners -/

theorem scanThen_eq {p : Char → Bool} {c : Char} {s w r : List Char}
    (h : scanThen p c s = some (w, r)) :
    s = w ++ c :: r ∧ w = s.takeWhile p := by
  unfold scanThen at h
  cases hd : s.dropWhile p with
  | nil => rw [hd] at h; simp at h
  | cons d rest =>
    rw [hd] at h
    by_cases hdc : d = c
    · simp only [hdc, if_true, Option.some.injEq, Prod.mk.injEq] at h
      obtain ⟨hw, hr⟩ := h
      subst hw hr hdc
      refine ⟨?_, rfl⟩
      conv_lhs => rw [← List.takeWhile_append_dropWhile (p := p) (l := s)]
      rw [hd]
    · simp [hdc] at h

theorem scanThen_none {p : Char → Bool} {c : Char} {s : List Char}
    (h : scanThen p c s = none) : (s.dropWhile p).head? ≠ some c := by
  unfold scanThen at h
  cases hd : s.dropWhile p with
  | nil => simp
  | cons d rest =>
    rw [hd] at h
    by_cases hdc : d = c
    · simp [hdc] at h
    · simp [hdc]

theorem scanThen_mem {p : Char → Bool} {c : Char} {s w r : List Char}
    (h : scanThen p c s = some (w, r)) : ∀ x ∈ w, p x = true := by
  intro x hx
  rw [(scanThen_eq h).2] at hx
  exact List.mem_takeWhile_imp hx

theorem matchP1_eq {s g1 g2 r : List Char}
    (h : matchP1 s = some (g1, g2, r)) :
    s = g1 ++ '\n' :: g2 ++ r ∧ g1 ≠ [] := by
  unfold matchP1 at h
  split at h
  case _ ws1 r2 h1 =>
    split at h
    · simp at h
    case _ hws1 =>
      split at h
      case _ ws2 r3 h2 =>
        split at h
        · simp at h
        case _ hws2 =>
          split at h
          case _ body r4 h3 =>
            split at h
            · simp at h
            case _ hbody =>
              split at h
              case _ ws3 r5 h4 =>
                split at h
                case _ ws4 rest h5 =>
                  simp only [Option.some.injEq, Prod.mk.injEq] at h
                  obtain ⟨hg1, hg2, hr⟩ := h
                  subst hg1 hg2 hr
                  obtain ⟨hs, -⟩ := scanThen_eq h1
                  obtain ⟨hr2, -⟩ := scanThen_eq h2
                  obtain ⟨hr3, -⟩ := scanThen_eq h3
                  obtain ⟨hr4, -⟩ := scanThen_eq h4
                  obtain ⟨hr5, -⟩ := scanThen_eq h5
                  subst hs hr2 hr3 hr4 hr5
                  refine ⟨by simp, by simp⟩
                · simp at h
              · simp at h
          · simp at h
      · simp at h
  · simp at h

theorem matchP1_length {s g1 g2 r : List Char}
    (h : matchP1 s = some (g1, g2, r)) : r.length + 2 ≤ s.length := by
  obtain ⟨hs, hg1⟩ := matchP1_eq h
  have : 1 ≤ g1.length := by
    cases g1 with
    | nil => exact absurd rfl hg1
    | cons a l => simp
  rw [hs]
  simp only [List.length_append, List.length_cons]
  omega

theorem matchP2_eq {s w r : List Char} (h : matchP2 s = some (w, r)) :
    s = ',' :: w ++ '}' :: r ∧ ∀ x ∈ w, pySpace x = true := by
  unfold matchP2 at h
  split at h
  case _ t =>
    obtain ⟨ht, -⟩ := scanThen_eq h
    exact ⟨by simp [ht], scanThen_mem h⟩
  · simp at h

theorem matchP2_length {s w r : List Char}
    (h : matchP2 s = some (w, r)) : r.length + 2 ≤ s.length := by
  obtain ⟨hs, -⟩ := matchP2_eq h
  rw [hs]
  simp only [List.length_cons, List.length_append]
  omega

/-! ### Fuel-insensitivity of the substitution scans -/

theorem subP1F_nil (f : Nat) : subP1F f [] = [] := by
  cases f <;> rfl

theorem subP2F_nil (f : Nat) : subP2F f [] = [] := by
  cases f <;> rfl

theorem subP1F_congr :
    ∀ f g s, s.length ≤ f → s.length ≤ g → subP1F f s = subP1F g s := by
  intro f
  induction f with
  | zero =>
    intro g s hf _
    have : s = [] := List.length_eq_zero.mp (Nat.le_zero.mp hf)
    subst this
    rw [subP1F_nil, subP1F_nil]
  | succ f ih =>
    intro g s hf hg
    cases s with
    | nil => rw [subP1F_nil, subP1F_nil]
    | cons c cs =>
      cases g with
      | zero => simp at hg
      | succ g' =>
        show subP1F (f + 1) (c :: cs) = subP1F (g' + 1) (c :: cs)
        simp only [subP1F]
        cases hm : matchP1 (c :: cs) with
        | some v =>
          obtain ⟨g1, g2, rest⟩ := v
          have hl := matchP1_length hm
          simp only [List.length_cons] at hf hg hl
          have h1 : rest.length ≤ f := by omega
          have h2 : rest.length ≤ g' := by omega
          dsimp only
          rw [ih g' rest h1 h2]
        | none =>
          simp only [List.length_cons] at hf hg
          dsimp only
          rw [ih g' cs (by omega) (by omega)]

theorem subP2F_congr :
    ∀ f g s, s.length ≤ f → s.length ≤ g → subP2F f s = subP2F g s := by
  intro f
  induction f with
  | zero =>
    intro g s hf _
    have : s = [] := List.length_eq_zero.mp (Nat.le_zero.mp hf)
    subst this
    rw [subP2F_nil, subP2F_nil]
  | succ f ih =>
    intro g s hf hg
    cases s with
    | nil => rw [subP2F_nil, subP2F_nil]
    | cons c cs =>
      cases g with
      | zero => simp at hg
      | succ g' =>
        show subP2F (f + 1) (c :: cs) = subP2F (g' + 1) (c :: cs)
        simp only [subP2F]
        cases hm : matchP2 (c :: cs) with
        | some v =>
          obtain ⟨w, rest⟩ := v
          have hl := matchP2_length hm
          simp only [List.length_cons] at hf hg hl
          dsimp only
          rw [ih g' rest (by omega) (by omega)]
        | none =>
          simp only [List.length_cons] at hf hg
          dsimp only
          rw [ih g' cs (by omega) (by omega)]

/-! ### Auxiliary lemmas about commas -/

theorem dropCommas_append (a b : List Char) :
    dropCommas (a ++ b) = dropCommas a ++ dropCommas b := by
  induction a with
  | nil => rfl
  | cons c cs ih =>
    by_cases h : c = ',' <;> simp [dropCommas, h, ih]

theorem dropCommas_comma_cons (s : List Char) :
    dropCommas (',' :: s) = dropCommas s := by
  simp [dropCommas]

theorem dropCommas_cons_ne {c : Char} (h : ¬ c = ',') (s : List Char) :
    dropCommas (c :: s) = c :: dropCommas s := by
  simp [dropCommas, h]

theorem countCommas_append (a b : List Char) :
    countCommas (a ++ b) = countCommas a + countCommas b := by
  induction a with
  | nil => simp [countCommas]
  | cons c cs ih => simp [countCommas, ih]; omega

theorem dropCommas_nl_cons (s : List Char) :
    dropCommas ('\n' :: s) = '\n' :: dropCommas s :=
  dropCommas_cons_ne (by decide) s

theorem dropCommas_close_cons (s : List Char) :
    dropCommas ('}' :: s) = '}' :: dropCommas s :=
  dropCommas_cons_ne (by decide) s

theorem countCommas_comma_cons (s : List Char) :
    countCommas (',' :: s) = 1 + countCommas s := by
  simp [countCommas]

theorem countCommas_cons_ne {c : Char} (h : ¬ c = ',') (s : List Char) :
    countCommas (c :: s) = countCommas s := by
  simp [countCommas, h]

theorem countCommas_nl_cons (s : List Char) :
    countCommas ('\n' :: s) = countCommas s :=
  countCommas_cons_ne (by decide) s

/-! ### The substitutions do nothing on pattern-free text -/

theorem subP1F_of_p1Free :
    ∀ f s, s.length ≤ f → p1Free s = true → subP1F f s = s := by
  intro f
  induction f with
  | zero =>
    intro s hf _
    have : s = [] := List.length_eq_zero.mp (Nat.le_zero.mp hf)
    simp [this, subP1F_nil]
  | succ f ih =>
    intro s hf hfree
    cases s with
    | nil => exact subP1F_nil _
    | cons c cs =>
      simp only [p1Free, Bool.and_eq_true, Option.isNone_iff_eq_none] at hfree
      obtain ⟨hnone, hrest⟩ := hfree
      simp only [subP1F, hnone]
      simp only [List.length_cons] at hf
      rw [ih cs (by omega) hrest]

theorem subP2F_of_p2Free :
    ∀ f s, s.length ≤ f → p2Free s = true → subP2F f s = s := by
  intro f
  induction f with
  | zero =>
    intro s hf _
    have : s = [] := List.length_eq_zero.mp (Nat.le_zero.mp hf)
    simp [this, subP2F_nil]
  | succ f ih =>
    intro s hf hfree
    cases s with
    | nil => exact subP2F_nil _
    | cons c cs =>
      simp only [p2Free, Bool.and_eq_true, Option.isNone_iff_eq_none] at hfree
      obtain ⟨hnone, hrest⟩ := hfree
      simp only [subP2F, hnone]
      simp only [List.length_cons] at hf
      rw [ih cs (by omega) hrest]

theorem fixLines_of_sitesFree :
    ∀ ls, sitesFree ls = true → fixLines ls = ls := by
  intro ls
  induction ls with
  | nil => intro _; rfl
  | cons l rest ih =>
    intro h
    simp only [sitesFree, Bool.and_eq_true, Bool.not_eq_true'] at h
    obtain ⟨hg, hrest⟩ := h
    simp [fixLines, hg, ih hrest]

/-! ### Splitting and joining lines -/

theorem splitNl_ne_nil (s : List Char) : splitNl s ≠ [] := by
  cases s with
  | nil => simp [splitNl]
  | cons c cs =>
    simp only [splitNl]
    by_cases h : c = '\n'
    · simp [h]
    · simp only [h, if_false]
      cases splitNl cs <;> simp

theorem joinNl_cons {ls : List (List Char)} (h : ls ≠ []) (l : List Char) :
    joinNl (l :: ls) = l ++ '\n' :: joinNl ls := by
  cases ls with
  | nil => exact absurd rfl h
  | cons m ms => rfl

theorem joinNl_splitNl (s : List Char) : joinNl (splitNl s) = s := by
  induction s with
  | nil => rfl
  | cons c cs ih =>
    by_cases h : c = '\n'
    · subst h
      show joinNl (splitNl ('\n' :: cs)) = '\n' :: cs
      have hs : splitNl ('\n' :: cs) = [] :: splitNl cs := by simp [splitNl]
      rw [hs, joinNl_cons (splitNl_ne_nil cs), ih]
      rfl
    · have hs : splitNl (c :: cs) =
          match splitNl cs with
          | l :: ls => (c :: l) :: ls
          | [] => [[c]] := by
        simp [splitNl, h]
      cases hsp : splitNl cs with
      | nil => exact absurd hsp (splitNl_ne_nil cs)
      | cons l ls =>
        rw [hsp] at hs
        rw [hsp] at ih
        cases ls with
        | nil =>
          simp only [joinNl] at ih
          simp [hs, joinNl, ih]
        | cons m ms =>
          rw [hs, joinNl_cons (by simp), List.cons_append]
          rw [joinNl_cons (by simp)] at ih
          rw [ih]

/-! ### Frame lemmas: only commas are touched -/

theorem subP1F_dropCommas :
    ∀ f s, s.length ≤ f → dropCommas (subP1F f s) = dropCommas s := by
  intro f
  induction f with
  | zero =>
    intro s hf
    have : s = [] := List.length_eq_zero.mp (Nat.le_zero.mp hf)
    simp [this, subP1F_nil]
  | succ f ih =>
    intro s hf
    cases s with
    | nil => rw [subP1F_nil]
    | cons c cs =>
      simp only [subP1F]
      cases hm : matchP1 (c :: cs) with
      | some v =>
        obtain ⟨g1, g2, rest⟩ := v
        obtain ⟨hs, -⟩ := matchP1_eq hm
        have hl := matchP1_length hm
        simp only [List.length_cons] at hf hl
        dsimp only
        rw [hs]
        simp only [dropCommas_append, dropCommas_comma_cons, dropCommas_nl_cons,
          ih rest (by omega)]
      | none =>
        dsimp only
        by_cases hc : c = ','
        · subst hc
          rw [dropCommas_comma_cons, dropCommas_comma_cons]
          exact ih cs (by simp at hf; omega)
        · rw [dropCommas_cons_ne hc, dropCommas_cons_ne hc]
          rw [ih cs (by simp at hf; omega)]

theorem subP2F_dropCommas :
    ∀ f s, s.length ≤ f → dropCommas (subP2F f s) = dropCommas s := by
  intro f
  induction f with
  | zero =>
    intro s hf
    have : s = [] := List.length_eq_zero.mp (Nat.le_zero.mp hf)
    simp [this, subP2F_nil]
  | succ f ih =>
    intro s hf
    cases s with
    | nil => rw [subP2F_nil]
    | cons c cs =>
      simp only [subP2F]
      cases hm : matchP2 (c :: cs) with
      | some v =>
        obtain ⟨w, rest⟩ := v
        obtain ⟨hs, -⟩ := matchP2_eq hm
        have hl := matchP2_length hm
        simp only [List.length_cons] at hf hl
        dsimp only
        rw [hs]
        simp only [dropCommas_append, dropCommas_comma_cons,
          dropCommas_close_cons, List.cons_append, ih rest (by omega)]
      | none =>
        dsimp only
        by_cases hc : c = ','
        · subst hc
          rw [dropCommas_comma_cons, dropCommas_comma_cons]
          exact ih cs (by simp at hf; omega)
        · rw [dropCommas_cons_ne hc, dropCommas_cons_ne hc]
          rw [ih cs (by simp at hf; omega)]

theorem subP1F_sublist : ∀ f s, s.length ≤ f → List.Sublist s (subP1F f s) := by
  intro f
  induction f with
  | zero =>
    intro s hf
    have : s = [] := List.length_eq_zero.mp (Nat.le_zero.mp hf)
    simp [this, subP1F_nil]
  | succ f ih =>
    intro s hf
    cases s with
    | nil => simp [subP1F_nil]
    | cons c cs =>
      simp only [subP1F]
      cases hm : matchP1 (c :: cs) with
      | some v =>
        obtain ⟨g1, g2, rest⟩ := v
        obtain ⟨hs, -⟩ := matchP1_eq hm
        have hl := matchP1_length hm
        simp only [List.length_cons] at hf hl
        dsimp only
        rw [hs]
        have tail : List.Sublist ('\n' :: (g2 ++ rest))
            (',' :: '\n' :: (g2 ++ subP1F f rest)) :=
          List.Sublist.cons ',' (List.Sublist.cons₂ '\n'
            (List.Sublist.append (List.Sublist.refl g2) (ih rest (by omega))))
        have main := List.Sublist.append (List.Sublist.refl g1) tail
        simpa using main
      | none =>
        dsimp only
        simp only [List.length_cons] at hf
        exact List.Sublist.cons₂ c (ih cs (by omega))

/-! ### Comma accounting for the insertion passes -/

theorem subP1F_countCommas :
    ∀ f s, s.length ≤ f →
      countCommas (subP1F f s) = countCommas s + p1CountF f s := by
  intro f
  induction f with
  | zero =>
    intro s hf
    have : s = [] := List.length_eq_zero.mp (Nat.le_zero.mp hf)
    simp [this, subP1F_nil, p1CountF]
  | succ f ih =>
    intro s hf
    cases s with
    | nil => simp [subP1F_nil, p1CountF, countCommas]
    | cons c cs =>
      simp only [subP1F, p1CountF]
      cases hm : matchP1 (c :: cs) with
      | some v =>
        obtain ⟨g1, g2, rest⟩ := v
        obtain ⟨hs, -⟩ := matchP1_eq hm
        have hl := matchP1_length hm
        simp only [List.length_cons] at hf hl
        dsimp only
        rw [hs]
        simp only [countCommas_append, countCommas_comma_cons,
          countCommas_nl_cons, ih rest (by omega)]
        omega
      | none =>
        dsimp only
        simp only [List.length_cons] at hf
        simp only [countCommas]
        rw [ih cs (by omega)]
        omega

/-! ### The cleanup pass deletes exactly the commas before closing braces -/

theorem dropWhile_append_of_forall {p : Char → Bool} {w : List Char}
    (hw : ∀ x ∈ w, p x = true) (t : List Char) :
    (w ++ t).dropWhile p = t.dropWhile p := by
  induction w with
  | nil => rfl
  | cons x xs ih =>
    have hx : p x = true := hw x (by simp)
    simp only [List.cons_append, List.dropWhile_cons, hx, if_true]
    exact ih (fun y hy => hw y (by simp [hy]))

theorem eraseTrailingCommas_ws_head {w : List Char}
    (hw : ∀ x ∈ w, pySpace x = true) (t : List Char) :
    eraseTrailingCommas (w ++ '}' :: t) = w ++ '}' :: eraseTrailingCommas t := by
  induction w with
  | nil =>
    show eraseTrailingCommas ('}' :: t) = '}' :: eraseTrailingCommas t
    rw [eraseTrailingCommas]
    simp
  | cons x xs ih =>
    have hx : pySpace x = true := hw x (by simp)
    have hxc : ¬ x = ',' := by
      intro hc
      rw [hc] at hx
      simp [pySpace] at hx
    show eraseTrailingCommas (x :: (xs ++ '}' :: t)) = _
    rw [eraseTrailingCommas]
    simp only [hxc, false_and, if_false]
    rw [ih (fun y hy => hw y (by simp [hy]))]
    rfl

theorem subP2F_eq_erase :
    ∀ f s, s.length ≤ f → subP2F f s = eraseTrailingCommas s := by
  intro f
  induction f with
  | zero =>
    intro s hf
    have : s = [] := List.length_eq_zero.mp (Nat.le_zero.mp hf)
    simp [this, subP2F_nil, eraseTrailingCommas]
  | succ f ih =>
    intro s hf
    cases s with
    | nil => rw [subP2F_nil]; rfl
    | cons c cs =>
      simp only [subP2F]
      cases hm : matchP2 (c :: cs) with
      | some v =>
        obtain ⟨w, rest⟩ := v
        obtain ⟨hs, hws⟩ := matchP2_eq hm
        have hl := matchP2_length hm
        simp only [List.length_cons] at hf hl
        have hc : c = ',' := by
          have := hs
          simp only [List.cons_append] at this
          exact (List.cons_eq_cons.mp this).1
        have hcs : cs = w ++ '}' :: rest := by
          have := hs
          simp only [List.cons_append] at this
          exact (List.cons_eq_cons.mp this).2
        dsimp only
        subst hc
        rw [eraseTrailingCommas]
        have hdw : (cs.dropWhile pySpace).head? = some '}' := by
          rw [hcs, dropWhile_append_of_forall hws]
          simp [List.dropWhile_cons, pySpace]
        rw [if_pos ⟨rfl, hdw⟩]
        rw [hcs, eraseTrailingCommas_ws_head hws, ih rest (by omega)]
      | none =>
        dsimp only
        simp only [List.length_cons] at hf
        rw [eraseTrailingCommas]
        have hcond : ¬ (c = ',' ∧ (cs.dropWhile pySpace).head? = some '}') := by
          rintro ⟨hc, hdw⟩
          subst hc
          have := scanThen_none (p := pySpace) (c := '}') (s := cs)
          unfold matchP2 at hm
          exact this hm hdw
        simp only [hcond, if_false]
        rw [ih cs (by omega)]

/-! ### The line-by-line pass -/

theorem fixLines_length (ls : List (List Char)) :
    (fixLines ls).length = ls.length := by
  induction ls with
  | nil => rfl
  | cons l rest ih => simp [fixLines, ih]

theorem fixLines_getD :
    ∀ (ls : List (List Char)) (i : Nat), i < ls.length →
      (fixLines ls).getD i [] =
        (if endsWithClose (pyStrip (ls.getD i [])) && nextKeyMatch (ls.drop (i + 1))
         then ls.getD i [] ++ [','] else ls.getD i []) := by
  intro ls
  induction ls with
  | nil => intro i hi; simp at hi
  | cons l rest ih =>
    intro i hi
    cases i with
    | zero => simp [fixLines]
    | succ j =>
      simp only [List.length_cons] at hi
      have := ih j (by omega)
      simpa [fixLines] using this

theorem fixLines_preserves_last :
    ∀ ls : List (List Char), (fixLines ls).getLast? = ls.getLast? := by
  intro ls
  induction ls with
  | nil => rfl
  | cons l rest ih =>
    cases rest with
    | nil => simp [fixLines, nextKeyMatch]
    | cons m ms =>
      have h1 : fixLines (l :: m :: ms) =
          (if endsWithClose (pyStrip l) && nextKeyMatch (m :: ms)
           then l ++ [','] else l) :: fixLines (m :: ms) := rfl
      have h2 : fixLines (m :: ms) =
          (if endsWithClose (pyStrip m) && nextKeyMatch ms
           then m ++ [','] else m) :: fixLines ms := rfl
      rw [h1, h2, List.getLast?_cons_cons, ← h2, ih, List.getLast?_cons_cons]

theorem joinNl_fixLines_dropCommas :
    ∀ ls : List (List Char),
      dropCommas (joinNl (fixLines ls)) = dropCommas (joinNl ls) := by
  intro ls
  induction ls with
  | nil => rfl
  | cons l rest ih =>
    cases rest with
    | nil =>
      have h1 : fixLines [l] =
          [if endsWithClose (pyStrip l) && nextKeyMatch ([] : List (List Char))
           then l ++ [','] else l] := rfl
      rw [h1]
      by_cases hg : endsWithClose (pyStrip l) && nextKeyMatch ([] : List (List Char))
      · simp [nextKeyMatch] at hg
      · simp only [hg, if_false]
        rfl
    | cons m ms =>
      have h1 : fixLines (l :: m :: ms) =
          (if endsWithClose (pyStrip l) && nextKeyMatch (m :: ms)
           then l ++ [','] else l) :: fixLines (m :: ms) := rfl
      have h2 : fixLines (m :: ms) =
          (if endsWithClose (pyStrip m) && nextKeyMatch ms
           then m ++ [','] else m) :: fixLines ms := rfl
      have hne : fixLines (m :: ms) ≠ [] := by rw [h2]; simp
      rw [h1, joinNl_cons hne, joinNl_cons (by simp)]
      rw [dropCommas_append, dropCommas_append, dropCommas_nl_cons,
        dropCommas_nl_cons, ih]
      by_cases hg : endsWithClose (pyStrip l) && nextKeyMatch (m :: ms)
      · rw [if_pos hg, dropCommas_append]
        have : dropCommas [','] = [] := rfl
        rw [this, List.append_nil]
      · rw [if_neg hg]

theorem joinNl_fixLines_countCommas :
    ∀ ls : List (List Char),
      countCommas (joinNl (fixLines ls)) =
        countCommas (joinNl ls) + lineSiteCount ls := by
  intro ls
  induction ls with
  | nil => rfl
  | cons l rest ih =>
    cases rest with
    | nil =>
      have h1 : fixLines [l] =
          [if endsWithClose (pyStrip l) && nextKeyMatch ([] : List (List Char))
           then l ++ [','] else l] := rfl
      rw [h1]
      by_cases hg : endsWithClose (pyStrip l) && nextKeyMatch ([] : List (List Char))
      · simp [nextKeyMatch] at hg
      · simp only [hg, if_false]
        show countCommas (joinNl [l]) = countCommas (joinNl [l]) + lineSiteCount [l]
        simp [lineSiteCount, hg, nextKeyMatch]
    | cons m ms =>
      have h1 : fixLines (l :: m :: ms) =
          (if endsWithClose (pyStrip l) && nextKeyMatch (m :: ms)
           then l ++ [','] else l) :: fixLines (m :: ms) := rfl
      have h2 : fixLines (m :: ms) =
          (if endsWithClose (pyStrip m) && nextKeyMatch ms
           then m ++ [','] else m) :: fixLines ms := rfl
      have hne : fixLines (m :: ms) ≠ [] := by rw [h2]; simp
      rw [h1, joinNl_cons hne, joinNl_cons (by simp)]
      rw [countCommas_append, countCommas_append, countCommas_nl_cons,
        countCommas_nl_cons, ih]
      by_cases hg : endsWithClose (pyStrip l) && nextKeyMatch (m :: ms)
      · rw [if_pos hg]
        have hsc : lineSiteCount (l :: m :: ms) = 1 + lineSiteCount (m :: ms) := by
          rw [lineSiteCount, if_pos hg]
        rw [hsc, countCommas_append]
        have hone : countCommas [','] = 1 := rfl
        rw [hone]
        omega
      · rw [if_neg hg]
        have hsc : lineSiteCount (l :: m :: ms) = lineSiteCount (m :: ms) := by
          rw [lineSiteCount, if_neg hg]
          omega
        rw [hsc]
        omega

/-! ### Putting the passes together -/

theorem fix_json_comprehensive_of_free {s : List Char}
    (h1 : sitesFree (splitNl s) = true) (h2 : p2Free s = true)
    (h3 : p1Free s = true) : fix_json_comprehensive s = s := by
  simp only [fix_json_comprehensive]
  rw [fixLines_of_sitesFree _ h1, joinNl_splitNl]
  rw [subP2F_of_p2Free _ _ (le_refl _) h2]
  exact subP1F_of_p1Free _ _ (le_refl _) h3

theorem fix_json_basic_of_free {s : List Char} (h : p1Free s = true) :
    fix_json_basic s = s :=
  subP1F_of_p1Free _ _ (le_refl _) h

/-! ## Settling the claims -/

/-- Claim C1 is false as stated: `cexBlank` contains no pair of adjacent
lines in which a closing-brace line is followed by a quoted-key
object-opening line, yet neither variant returns it unchanged — the
whitespace of the basic pattern spans the blank line between the two
matching lines, and the comprehensive variant reruns that very pattern as
its final pass. -/
theorem claim_C1_counterexample :
    sitesFree (splitNl cexBlank) = true ∧
    fix_json_basic cexBlank ≠ cexBlank ∧
    fix_json_comprehensive cexBlank ≠ cexBlank :=
  ⟨by decide, by decide, by decide⟩

/-- Claim C1, amended: the basic variant returns the text unchanged exactly
when no suffix of the text matches its cross-line pattern (whose whitespace
may span blank lines), and the comprehensive variant additionally requires
that no adjacent line pair forms a repair site and that no comma is followed
by optional whitespace and a closing brace. -/
theorem claim_C1_amended (s : List Char) :
    (p1Free s = true → fix_json_basic s = s) ∧
    (p1Free s = true → sitesFree (splitNl s) = true → p2Free s = true →
      fix_json_comprehensive s = s) :=
  ⟨fun h => fix_json_basic_of_free h,
   fun h3 h1 h2 => fix_json_comprehensive_of_free h1 h2 h3⟩

/-- Witness for the amended claim C1 at the flat object `exFlat`. -/
theorem claim_C1_witness :
    p1Free exFlat = true ∧ sitesFree (splitNl exFlat) = true ∧
    p2Free exFlat = true ∧ fix_json_basic exFlat = exFlat ∧
    fix_json_comprehensive exFlat = exFlat :=
  ⟨by decide, by decide, by decide,
   (claim_C1_amended exFlat).1 (by decide),
   (claim_C1_amended exFlat).2 (by decide) (by decide) (by decide)⟩

/-- Claim C2 is false as stated: on `,,\x7d` the comprehensive variant's
single cleanup scan removes only the second comma, so applying the variant
twice removes one more comma than applying it once. -/
theorem claim_C2_counterexample :
    fix_json_comprehensive (fix_json_comprehensive cexDouble) ≠
      fix_json_comprehensive cexDouble := by
  decide

/-- Claim C2, amended: applying a variant twice yields the same result as
applying it once whenever the output of the first application is free of the
patterns that variant rewrites (for the basic variant its cross-line
pattern; for the comprehensive variant additionally adjacent-line repair
sites and commas before closing braces). -/
theorem claim_C2_amended (s : List Char) :
    (p1Free (fix_json_basic s) = true →
      fix_json_basic (fix_json_basic s) = fix_json_basic s) ∧
    (p1Free (fix_json_comprehensive s) = true →
     sitesFree (splitNl (fix_json_comprehensive s)) = true →
     p2Free (fix_json_comprehensive s) = true →
      fix_json_comprehensive (fix_json_comprehensive s) =
        fix_json_comprehensive s) :=
  ⟨fun h => fix_json_basic_of_free h,
   fun h3 h1 h2 => fix_json_comprehensive_of_free h1 h2 h3⟩

set_option maxRecDepth 8000 in
/-- Witness for the amended claim C2 at the specification's example input:
both variants are idempotent there. -/
theorem claim_C2_witness :
    p1Free (fix_json_basic exJson) = true ∧
    fix_json_basic (fix_json_basic exJson) = fix_json_basic exJson ∧
    p1Free (fix_json_comprehensive exJson) = true ∧
    sitesFree (splitNl (fix_json_comprehensive exJson)) = true ∧
    p2Free (fix_json_comprehensive exJson) = true ∧
    fix_json_comprehensive (fix_json_comprehensive exJson) =
      fix_json_comprehensive exJson :=
  ⟨by decide, (claim_C2_amended exJson).1 (by decide), by decide, by decide,
   by decide,
   (claim_C2_amended exJson).2 (by decide) (by decide) (by decide)⟩

set_option maxRecDepth 8000 in
/-- Claim C3: on the specification's six-line example both variants produce
the expected text, which differs from the input by exactly one inserted
comma (after the first block's closing brace) and nothing else. -/
theorem claim_C3 :
    fix_json_basic exJson = exJsonFixed ∧
    fix_json_comprehensive exJson = exJsonFixed ∧
    countCommas exJsonFixed = countCommas exJson + 1 ∧
    dropCommas exJsonFixed = dropCommas exJson :=
  ⟨by decide, by decide, by decide, by decide⟩

/-- Claim C4 is false as stated: `cexCorrect` is correctly comma-separated
in the claim's sense (every closing-brace line directly followed by a
quoted-key line carries its comma, and no comma precedes a closing brace),
yet the basic variant inserts a comma, because its pattern also fires when
the matching lines are separated by a blank line. -/
theorem claim_C4_counterexample :
    sitesFree (splitNl cexCorrect) = true ∧ p2Free cexCorrect = true ∧
    fix_json_basic cexCorrect ≠ cexCorrect :=
  ⟨by decide, by decide, by decide⟩

/-- Claim C4, amended: an already correctly comma-separated input (no
adjacent-line repair site and no comma before a closing brace) that
moreover contains no occurrence of the cross-line brace-then-key pattern is
returned unchanged by both variants; in particular no duplicate comma is
ever introduced on such inputs. -/
theorem claim_C4_amended (s : List Char) (h1 : sitesFree (splitNl s) = true)
    (h2 : p2Free s = true) (h3 : p1Free s = true) :
    fix_json_basic s = s ∧ fix_json_comprehensive s = s :=
  ⟨fix_json_basic_of_free h3, fix_json_comprehensive_of_free h1 h2 h3⟩

set_option maxRecDepth 8000 in
/-- Witness for the amended claim C4 at the specification's expected output
text, which is already correctly comma-separated. -/
theorem claim_C4_witness :
    sitesFree (splitNl exJsonFixed) = true ∧ p2Free exJsonFixed = true ∧
    p1Free exJsonFixed = true ∧ fix_json_basic exJsonFixed = exJsonFixed ∧
    fix_json_comprehensive exJsonFixed = exJsonFixed :=
  ⟨by decide, by decide, by decide,
   (claim_C4_amended exJsonFixed (by decide) (by decide) (by decide)).1,
   (claim_C4_amended exJsonFixed (by decide) (by decide) (by decide)).2⟩

/-- Claim C5: the comprehensive variant's cleanup pass deletes exactly the
commas whose next non-whitespace character (possibly after a newline) is a
closing brace, and keeps every other character; in particular the
specification's example `"value": "a",\n\x7d` is rewritten to
`"value": "a"\n\x7d` by the comprehensive variant. -/
theorem claim_C5 :
    (∀ f s, s.length ≤ f → subP2F f s = eraseTrailingCommas s) ∧
    fix_json_comprehensive exTrailing = exTrailingFixed :=
  ⟨subP2F_eq_erase, by decide⟩

/-- Witness for claim C5's fuel hypothesis at the example text. -/
theorem claim_C5_witness :
    exTrailing.length ≤ exTrailing.length ∧
    subP2F exTrailing.length exTrailing = eraseTrailingCommas exTrailing :=
  ⟨le_refl _, claim_C5.1 exTrailing.length exTrailing (le_refl _)⟩

/-- Claim C6: the comprehensive variant's line pass keeps the number of
lines, and appends a comma to line `i` exactly when line `i`'s stripped
content ends with a closing brace and a next line exists that matches the
quoted-key/open-brace pattern; all other lines pass through unchanged. -/
theorem claim_C6 (ls : List (List Char)) :
    (fixLines ls).length = ls.length ∧
    ∀ i, i < ls.length →
      (fixLines ls).getD i [] =
        (if endsWithClose (pyStrip (ls.getD i []))
            && nextKeyMatch (ls.drop (i + 1))
         then ls.getD i [] ++ [','] else ls.getD i []) :=
  ⟨fixLines_length ls, fun i hi => fixLines_getD ls i hi⟩

/-- Witness for claim C6 at line 2 of the specification's example (the line
holding the first closing brace, which receives the comma). -/
theorem claim_C6_witness :
    (2 : Nat) < (splitNl exJson).length ∧
    (fixLines (splitNl exJson)).getD 2 [] =
      (splitNl exJson).getD 2 [] ++ [','] := by
  refine ⟨by decide, ?_⟩
  have h := (claim_C6 (splitNl exJson)).2 2 (by decide)
  rw [h]
  decide

/-- Claim C7 is false as stated: on `cexGap` no two adjacent lines form a
repair site, yet both variants insert a comma after the closing brace — the
basic pattern's whitespace spans the intervening blank line. -/
theorem claim_C7_counterexample :
    sitesFree (splitNl cexGap) = true ∧
    countCommas (fix_json_basic cexGap) = countCommas cexGap + 1 ∧
    fix_json_comprehensive cexGap = fix_json_basic cexGap :=
  ⟨by decide, by decide, by decide⟩

/-- Claim C7, amended: every comma insertion of the basic substitution
corresponds to one selected occurrence of its textual pattern — whose
whitespace may span line boundaries, so the matching lines need not be
adjacent — and every insertion of the comprehensive variant's line pass
corresponds to one adjacent-line repair site: the comma counts grow by
exactly these match counts. -/
theorem claim_C7_amended (s : List Char) :
    countCommas (fix_json_basic s) = countCommas s + p1CountF s.length s ∧
    countCommas (joinNl (fixLines (splitNl s))) =
      countCommas s + lineSiteCount (splitNl s) := by
  constructor
  · exact subP1F_countCommas s.length s (le_refl _)
  · rw [joinNl_fixLines_countCommas, joinNl_splitNl]

/-- Claim C8: both variants change the text only at comma characters —
erasing all commas from input and output yields identical texts, so every
non-comma character (line breaks and indentation included) is preserved in
order; the basic variant moreover only inserts, its input being a
subsequence of its output. -/
theorem claim_C8 (s : List Char) :
    dropCommas (fix_json_basic s) = dropCommas s ∧
    List.Sublist s (fix_json_basic s) ∧
    dropCommas (fix_json_comprehensive s) = dropCommas s := by
  refine ⟨subP1F_dropCommas _ _ (le_refl _), subP1F_sublist _ _ (le_refl _), ?_⟩
  simp only [fix_json_comprehensive]
  rw [subP1F_dropCommas _ _ (le_refl _), subP2F_dropCommas _ _ (le_refl _),
    joinNl_fixLines_dropCommas, joinNl_splitNl]

/-- Claim C9: the substitution scans are total — any fuel of at least the
text's length yields the same stable result — and an input matching no
repair pattern passes through both variants unchanged; no failure arises in
the text-to-text filters themselves. -/
theorem claim_C9 (s : List Char) :
    (∀ f, s.length ≤ f →
      subP1F f s = fix_json_basic s ∧ subP2F f s = subP2F s.length s) ∧
    (p1Free s = true → fix_json_basic s = s) ∧
    (sitesFree (splitNl s) = true → p2Free s = true → p1Free s = true →
      fix_json_comprehensive s = s) :=
  ⟨fun f hf => ⟨subP1F_congr f s.length s hf (le_refl _),
    subP2F_congr f s.length s hf (le_refl _)⟩,
   fun h => fix_json_basic_of_free h,
   fun h1 h2 h3 => fix_json_comprehensive_of_free h1 h2 h3⟩

/-- Witness for claim C9 at the trailing-comma example's repaired text. -/
theorem claim_C9_witness :
    exTrailingFixed.length ≤ 40 ∧
    subP1F 40 exTrailingFixed = fix_json_basic exTrailingFixed ∧
    p1Free exTrailingFixed = true ∧
    fix_json_basic exTrailingFixed = exTrailingFixed :=
  ⟨by decide, ((claim_C9 exTrailingFixed).1 40 (by decide)).1, by decide,
   (claim_C9 exTrailingFixed).2.1 (by decide)⟩

/-- Claim C10: the comprehensive variant's line pass never appends a comma
to the last line of the document — the next-line guard fails on an empty
remainder, so the final line (closing brace or not) is returned unchanged:
the last line of the pass's output is exactly the last line of the input. -/
theorem claim_C10 (ls : List (List Char)) :
    nextKeyMatch ([] : List (List Char)) = false ∧
    (fixLines ls).getLast? = ls.getLast? :=
  ⟨rfl, fixLines_preserves_last ls⟩

end FixJson
